import Mathlib

/-!
Verification of the span/attribute core of `src/text/attrs.rs`.

The embedding follows the Rust source closely:

* `Attributes` and its `merged` algebra (`src/text/attrs.rs`, lines 14-30);
* markup rendering `Attributes.render_html` (lines 60-88);
* `Span` with the lexicographic `(start, end)` ordering of `impl Ord for Span`
  (lines 91-110; the field `range.end` is called `stop` here because `end` is a
  Lean keyword);
* the span-merge algorithm `merge` (lines 174-233);
* the offset-aware render pass `render_with_options` (lines 247-273).

Machine integers (`usize`) are embedded as `Nat`; the only subtractions the
source performs are guarded so they never underflow, which is proved below via
a checked variant.  Rust text slices `&text[a..b]` operate on UTF-8 bytes and
are embedded as code-point slices of a `List Char`; the spec's caller contract
requires all offsets to fall on code-point boundaries, and on the ASCII test
fixtures byte offsets and code-point offsets coincide.
-/

/-- Modelled from crossterm (an external crate, not part of this repository):
the colors the sources use, with the `Debug` display names the markup renderer
prints (`{:?}` formatting). -/
inductive Color where
  | blue
  | green
  | red
  deriving DecidableEq, Repr

/-- The `Debug` display name of a color, as the markup renderer interpolates it. -/
def Color.name : Color → String
  | .blue => "Blue"
  | .green => "Green"
  | .red => "Red"

/-- The record `Attributes` (src/text/attrs.rs lines 14-20). -/
structure Attributes where
  bold : Bool
  invert : Bool
  color : Option Color
  background : Option Color
  deriving DecidableEq, Repr

/-- Modelled from the spec: `util::coalesce` lives in `src/util.rs`, which is not
among the sources here.  The spec describes the color fields of `merged` as
"first-non-null-wins: if `self.color` is present, keep it; otherwise take
`other.color`", which is exactly an option coalesce. -/
def coalesce (a b : Option Color) : Option Color :=
  match a with
  | some c => some c
  | none => b

/-- The method `Attributes::merged` (src/text/attrs.rs lines 23-30).  The parameter is
called `with` in the source, a Lean keyword, hence `w`. -/
def Attributes.merged (self w : Attributes) : Attributes :=
  { bold := self.bold || w.bold
    invert := self.invert || w.invert
    color := coalesce self.color w.color
    background := coalesce self.background w.background }

/-- The rendering-target selector `Mode` (src/text/attrs.rs lines 8-12). -/
inductive Mode where
  | terminal
  | markup
  deriving DecidableEq, Repr

/-- The method `Attributes::render_html` (src/text/attrs.rs lines 60-88): successive
`push_str` calls concatenate the opening tags, the text, and the closing tags
in the source's order. -/
def Attributes.render_html (self : Attributes) (text : String) : String :=
  (if self.bold then "<b>" else "")
    ++ (if self.invert then "<invert>" else "")
    ++ (match self.background with
        | some background => "<bg:" ++ background.name ++ ">"
        | none => "")
    ++ (match self.color with
        | some color => "<fg:" ++ color.name ++ ">"
        | none => "")
    ++ text
    ++ (match self.color with
        | some color => "</fg:" ++ color.name ++ ">"
        | none => "")
    ++ (match self.background with
        | some background => "</bg:" ++ background.name ++ ">"
        | none => "")
    ++ (if self.invert then "</invert>" else "")
    ++ (if self.bold then "</b>" else "")

/-- Modelled from crossterm (an external crate, not part of this repository):
the terminal style state that the `Stylize` combinators accumulate — the two
attribute flags and the two colors the source toggles. -/
structure ContentStyle where
  bold : Bool
  reverse : Bool
  foreground_color : Option Color
  background_color : Option Color
  deriving DecidableEq, Repr

/-- Modelled from crossterm: styled content, a style plus the wrapped text. -/
structure StyledContent where
  style : ContentStyle
  content : String
  deriving DecidableEq, Repr

/-- Modelled from crossterm: `text.stylize()` wraps the text with no styling. -/
def stylize (text : String) : StyledContent :=
  ⟨⟨false, false, none, none⟩, text⟩

/-- Modelled from crossterm: `styled.bold()` sets the bold attribute. -/
def StyledContent.bold (s : StyledContent) : StyledContent :=
  { s with style := { s.style with bold := true } }

/-- Modelled from crossterm: `styled.reverse()` sets the reverse-video
attribute. -/
def StyledContent.reverse (s : StyledContent) : StyledContent :=
  { s with style := { s.style with reverse := true } }

/-- Modelled from crossterm: `styled.with(color)` sets the foreground color
(`with` is a Lean keyword, hence `withColor`). -/
def StyledContent.withColor (s : StyledContent) (color : Color) : StyledContent :=
  { s with style := { s.style with foreground_color := some color } }

/-- Modelled from crossterm: `styled.on(color)` sets the background color. -/
def StyledContent.on (s : StyledContent) (color : Color) : StyledContent :=
  { s with style := { s.style with background_color := some color } }

/-- Modelled from crossterm: `styled.to_string()` prints the content wrapped
in the escape sequences for the accumulated style.  The exact escape bytes
are produced by the external crate and are outside this repository; they are
abstracted as one explicit ESC-marker per applied styling, in the order the
source applies them (bold, reverse-video, foreground, background), plus a
trailing reset when any styling is present, so the styling the source applies
survives in the output.  No claim inspects terminal-mode bytes. -/
def StyledContent.to_string (s : StyledContent) : String :=
  (if s.style.bold then "\x1b[bold]" else "")
    ++ (if s.style.reverse then "\x1b[reverse]" else "")
    ++ (match s.style.foreground_color with
        | some color => "\x1b[fg:" ++ color.name ++ "]"
        | none => "")
    ++ (match s.style.background_color with
        | some background => "\x1b[bg:" ++ background.name ++ "]"
        | none => "")
    ++ s.content
    ++ (if s.style.bold || s.style.reverse || s.style.foreground_color.isSome
          || s.style.background_color.isSome then "\x1b[reset]" else "")

/-- The method `Attributes::render_term` (src/text/attrs.rs lines 43-58):
start from the unstyled text and apply, through the crossterm combinators,
bold, reverse-video, foreground color and background color — each only when
the corresponding attribute is set — then print the styled content. -/
def Attributes.render_term (self : Attributes) (text : String) : String :=
  let styled := stylize text
  let styled := if self.bold then styled.bold else styled
  let styled := if self.invert then styled.reverse else styled
  let styled :=
    match self.color with
    | some color => styled.withColor color
    | none => styled
  let styled :=
    match self.background with
    | some background => styled.on background
    | none => styled
  styled.to_string

/-- The method `Attributes::render_with_mode` (src/text/attrs.rs lines 36-41). -/
def Attributes.render_with_mode (self : Attributes) (text : String) : Mode → String
  | .terminal => self.render_term text
  | .markup => self.render_html text

/-- The method `Attributes::render` (src/text/attrs.rs lines 32-34). -/
def Attributes.render (self : Attributes) (text : String) : String :=
  self.render_with_mode text .terminal

/-- The record `Span` (src/text/attrs.rs lines 91-95): a half-open byte interval
`[start, stop)` (`range.start .. range.end` in the source) with attributes. -/
structure Span where
  start : Nat
  stop : Nat
  attrs : Attributes
  deriving DecidableEq, Repr

/-- The constructor `Span::new` (src/text/attrs.rs lines 113-118). -/
def Span.new (start stop : Nat) (attrs : Attributes) : Span :=
  ⟨start, stop, attrs⟩

/-- The `Ord for Span` order (src/text/attrs.rs lines 103-110): by `range.start`,
ties broken by `range.end`.  This is the non-strict comparison used to sort. -/
def spanLEP (x y : Span) : Prop :=
  x.start < y.start ∨ (x.start = y.start ∧ x.stop ≤ y.stop)

instance : DecidableRel spanLEP := fun x y =>
  inferInstanceAs (Decidable (x.start < y.start ∨ (x.start = y.start ∧ x.stop ≤ y.stop)))

instance : IsTotal Span spanLEP :=
  ⟨fun x y => by unfold spanLEP; omega⟩

instance : IsTrans Span spanLEP :=
  ⟨fun x y z hxy hyz => by unfold spanLEP at *; omega⟩

/-- Sorting: `Vec::sort` in `merge` and `render_with_options` is Rust's stable sort with
respect to `Ord for Span`.  All stable sorts agree extensionally, so it is
embedded as Mathlib's stable insertion sort over `spanLEP`. -/
def sortSpans (l : List Span) : List Span :=
  List.insertionSort spanLEP l

/-- The main loop of `merge` (src/text/attrs.rs lines 182-230), with the list
length as structural fuel: every iteration of the source loop removes exactly
one element from the working list (either by emitting the head, or by the
overlap resolution), so running the loop body `l.length` times is exact.

Branches, following the source:
* fewer than two elements: emit what remains and stop (cases `0` and `1`);
* first two overlap (`dup[0].end > dup[1].start`):
  - if `dup[0]` starts strictly first, emit the prefix
    `[dup[0].start, dup[1].start)` with `dup[0]`'s attributes and shrink
    `dup[0]` to start at `dup[1].start` (here `pre`/`t0`);
  - the overlap end `e` is the smaller of the two ends, `nxt` the larger, and
    the span ending later keeps its own attributes `na` for the remainder;
  - `dup[0]` becomes the overlap `[dup[1].start, e)` with the merged
    attributes (`d0`);
  - if the ends were equal the second span is removed, otherwise it becomes
    the remainder `[e, nxt)`; in that case the source's inner `while` pop
    necessarily emits `d0` at once (its end `e` equals the remainder's start),
    which is inlined here;
* otherwise the inner `while` loop emits the head; re-entering the recursion
  performs the subsequent pops of that `while`. -/
def mergeLoopN : Nat → List Span → List Span
  | 0, l => l
  | _ + 1, [] => []
  | _ + 1, [s] => [s]
  | n + 1, s0 :: s1 :: rest =>
    if s1.start < s0.stop then
      let pre : List Span :=
        if s0.start < s1.start then [⟨s0.start, s1.start, s0.attrs⟩] else []
      let t0 : Span :=
        if s0.start < s1.start then ⟨s1.start, s0.stop, s0.attrs⟩ else s0
      let e := if t0.stop < s1.stop then t0.stop else s1.stop
      let nxt := if t0.stop < s1.stop then s1.stop else t0.stop
      let na := if t0.stop < s1.stop then s1.attrs else t0.attrs
      let d0 : Span := ⟨s1.start, e, t0.attrs.merged s1.attrs⟩
      if nxt = e then
        pre ++ mergeLoopN n (d0 :: rest)
      else
        pre ++ d0 :: mergeLoopN n (⟨e, nxt, na⟩ :: rest)
    else
      s0 :: mergeLoopN n (s1 :: rest)

/-- The function `merge` (src/text/attrs.rs lines 174-233): concatenate `a` then `b`,
stable-sort, and run the merge loop. -/
def merge (a b : List Span) : List Span :=
  let dup := sortSpans (a ++ b)
  mergeLoopN dup.length dup

/-- Code-point slice `text[lo..hi]` of the text. -/
def strSlice (text : List Char) (lo hi : Nat) : String :=
  String.mk ((text.take hi).drop lo)

/-- The loop of `render_with_options` (src/text/attrs.rs lines 254-270) over the
already-sorted spans: `x` is the running unstyled cursor, `acc` the output. -/
def renderGo (text : List Char) (boff : Nat) (mode : Mode) :
    List Span → Nat → String → String
  | [], x, acc =>
    if x < text.length then acc ++ strSlice text x text.length else acc
  | s :: rest, x, acc =>
    if s.stop < boff then
      renderGo text boff mode rest x acc
    else
      let start := min (max boff s.start - boff) text.length
      let acc1 := if start > x then acc ++ strSlice text x start else acc
      let e := min (s.stop - boff) text.length
      let acc2 :=
        if e > start then acc1 ++ s.attrs.render_with_mode (strSlice text start e) mode
        else acc1
      renderGo text boff mode rest e acc2

/-- The function `render_with_options` (src/text/attrs.rs lines 247-273). -/
def render_with_options (text : List Char) (boff : Nat) (spans : List Span)
    (mode : Mode) : String :=
  renderGo text boff mode (sortSpans spans) 0 ""

/-- The function `render_with_mode` (src/text/attrs.rs lines 243-245). -/
def render_with_mode (text : List Char) (spans : List Span) (mode : Mode) : String :=
  render_with_options text 0 spans mode

/-- The function `render` (src/text/attrs.rs lines 235-237). -/
def render (text : List Char) (spans : List Span) : String :=
  render_with_mode text spans .terminal

/-- The function `render_with_offset` (src/text/attrs.rs lines 239-241). -/
def render_with_offset (text : List Char) (boff : Nat) (spans : List Span) : String :=
  render_with_options text boff spans .terminal

/-! ### Derived notions used to state the claims -/

/-- A point `x` lies in the half-open range of the span. -/
abbrev inSpan (s : Span) (x : Nat) : Prop :=
  s.start ≤ x ∧ x < s.stop

/-- A point `x` is covered by some span of the list. -/
def covers (l : List Span) (x : Nat) : Prop :=
  ∃ s ∈ l, inSpan s x

/-- Every span of the list is well-formed (`start <= end`), the data-model
invariant of the spec. -/
def WfSpans (l : List Span) : Prop :=
  ∀ s ∈ l, s.start ≤ s.stop

instance : Decidable (WfSpans l) :=
  inferInstanceAs (Decidable (∀ s ∈ l, s.start ≤ s.stop))

/-- The output shape the spec promises for `merge`: every adjacent pair
satisfies `out[i].end <= out[i+1].start`. -/
def sortedDisjoint : List Span → Bool
  | s0 :: s1 :: rest => decide (s0.stop ≤ s1.start) && sortedDisjoint (s1 :: rest)
  | _ => true

instance : Decidable (covers l x) :=
  inferInstanceAs (Decidable (∃ s ∈ l, inSpan s x))

/-- Attribute values used by the repository's tests. -/
def naAttrs : Attributes := ⟨false, false, none, none⟩

def boldAttrs : Attributes := ⟨true, false, none, none⟩

def blueAttrs : Attributes := ⟨false, false, some .blue, none⟩

def redAttrs : Attributes := ⟨false, false, some .red, none⟩

def greenAttrs : Attributes := ⟨false, false, some .green, none⟩

def boldInvAttrs : Attributes := ⟨true, true, none, none⟩

/-- C5: for all attributes `A`, `B`, the boolean flags of `A.merged(B)` are the
disjunction of the operands (hence commutative), while `color` and
`background` are first-non-null with `self` as the higher-priority operand. -/
theorem merged_bool_or_color_first (A B : Attributes) :
    (A.merged B).bold = (A.bold || B.bold) ∧
    (A.merged B).bold = (B.merged A).bold ∧
    (A.merged B).invert = (A.invert || B.invert) ∧
    (A.merged B).invert = (B.merged A).invert ∧
    (A.merged B).color = (if A.color.isSome then A.color else B.color) ∧
    (B.merged A).color = (if B.color.isSome then B.color else A.color) ∧
    (A.merged B).background = (if A.background.isSome then A.background else B.background) ∧
    (B.merged A).background = (if B.background.isSome then B.background else A.background) := by
  obtain ⟨b1, i1, c1, g1⟩ := A
  obtain ⟨b2, i2, c2, g2⟩ := B
  refine ⟨rfl, Bool.or_comm b1 b2, rfl, Bool.or_comm i1 i2, ?_, ?_, ?_, ?_⟩ <;>
    (cases c1 <;> cases c2 <;> cases g1 <;> cases g2 <;> simp [Attributes.merged, coalesce])

/-- C10: the empty attribute value is a two-sided identity for `merged`, and
`merged` is idempotent. -/
theorem merged_identity_idempotent (A : Attributes) :
    A.merged ⟨false, false, none, none⟩ = A ∧
    Attributes.merged ⟨false, false, none, none⟩ A = A ∧
    A.merged A = A := by
  obtain ⟨b, i, c, g⟩ := A
  refine ⟨?_, ?_, ?_⟩ <;>
    simp only [Attributes.merged] <;>
    (cases c <;> cases g <;> simp [coalesce])

/-- C4: the two concrete merge scenarios from the spec: a bold span overlapped
by a blue suffix splits into a bold prefix and a bold+blue overlap; and the
four-span example where the first non-null color by original priority (red)
prevails over a later-priority color (blue). -/
theorem merge_concrete_examples :
    merge [Span.new 0 5 boldAttrs] [Span.new 3 5 blueAttrs] =
      [Span.new 0 3 boldAttrs, Span.new 3 5 ⟨true, false, some .blue, none⟩] ∧
    merge [Span.new 3 5 redAttrs, Span.new 0 5 naAttrs]
        [Span.new 3 5 boldInvAttrs, Span.new 3 5 blueAttrs] =
      [Span.new 0 3 naAttrs, Span.new 3 5 ⟨true, true, some .red, none⟩] := by
  constructor <;> decide

/-- C1: the claim says every pair of adjacent output spans of `merge`
satisfies `out[i].end <= out[i+1].start`.  The code violates it: on the
well-formed, sorted input `[0..10, 1..5, 2..10]` the remainder `5..10` of the
first resolution is placed ahead of `2..10` without re-sorting, and the output
`[0..1, 1..5, 2..10]` has the adjacent pair `1..5`, `2..10` with `5 > 2`. -/
theorem merge_sorted_disjoint_fails :
    sortedDisjoint
      (merge [Span.new 0 10 boldAttrs, Span.new 1 5 boldInvAttrs,
              Span.new 2 10 blueAttrs] []) = false := by
  decide

/-- C2 counterexample: the claim says that when two overlapping spans share
the same start offset, a span from argument `a` wins priority over a span
from argument `b`.  Here `a`'s span `0..5` is blue and `b`'s span `0..3` is
red; both start at 0, yet the overlap `0..3` is colored red, because the sort
order of `Ord for Span` breaks start ties by `range.end` (smaller end first),
not by argument of origin. -/
theorem merge_equal_start_cex :
    merge [Span.new 0 5 blueAttrs] [Span.new 0 3 redAttrs] =
      [Span.new 0 3 ⟨false, false, some .red, none⟩,
       Span.new 3 5 ⟨false, false, some .blue, none⟩] ∧
    some Color.red ≠ some Color.blue := by
  constructor
  · decide
  · decide

/-- C2 amended: priority at an overlap follows the working list's sorted
order by `(start, end)`: for two spans sharing a start, the span with the
smaller end is evaluated first and is the higher-priority operand of the
attribute merge, regardless of which argument it came from. -/
theorem merge_equal_start_priority (s e0 e1 : Nat) (A B : Attributes)
    (h0 : s < e0) (h1 : e0 < e1) :
    merge [Span.new s e1 A] [Span.new s e0 B] =
      [Span.new s e0 (B.merged A), Span.new e0 e1 A] := by
  have hsort : sortSpans ([Span.new s e1 A] ++ [Span.new s e0 B]) =
      [Span.new s e0 B, Span.new s e1 A] := by
    simp only [sortSpans, List.insertionSort, List.orderedInsert, List.cons_append,
      List.nil_append]
    rw [if_neg]
    simp only [spanLEP, Span.new]
    omega
  simp only [merge, hsort, List.length_cons, List.length_nil]
  simp only [mergeLoopN, Span.new]
  rw [if_pos h0]
  simp only [lt_irrefl, if_neg (lt_irrefl s), if_false, if_pos h1]
  rw [if_neg (by omega : ¬ e1 = e0)]
  simp [mergeLoopN]

theorem merge_equal_start_priority_witness :
    (0 < 3 ∧ 3 < 5) ∧
    merge [Span.new 0 5 blueAttrs] [Span.new 0 3 redAttrs] =
      [Span.new 0 3 (redAttrs.merged blueAttrs), Span.new 3 5 blueAttrs] :=
  ⟨⟨by decide, by decide⟩,
    merge_equal_start_priority 0 3 5 blueAttrs redAttrs (by decide) (by decide)⟩

/-- The tag pairs an attribute value emits in the markup target, outermost
first: bold, invert, background, foreground — with a pair present only when
the corresponding attribute is set. -/
def tagPairs (a : Attributes) : List (String × String) :=
  (if a.bold then [("<b>", "</b>")] else [])
    ++ (if a.invert then [("<invert>", "</invert>")] else [])
    ++ (match a.background with
        | some c => [("<bg:" ++ c.name ++ ">", "</bg:" ++ c.name ++ ">")]
        | none => [])
    ++ (match a.color with
        | some c => [("<fg:" ++ c.name ++ ">", "</fg:" ++ c.name ++ ">")]
        | none => [])

/-- C6: markup rendering wraps the text in nested tag pairs in the exact
order bold, invert, background, foreground (outermost first), closing them in
exact reverse order, emitting a pair only for attributes actually set. -/
theorem render_html_nested_tags (a : Attributes) (text : String) :
    a.render_html text =
      String.join ((tagPairs a).map Prod.fst) ++ text ++
        String.join (((tagPairs a).map Prod.snd).reverse) := by
  obtain ⟨b, i, c, g⟩ := a
  cases b <;> cases i <;> cases c <;> cases g <;>
    simp [Attributes.render_html, tagPairs, String.join, String.append_assoc,
      String.empty_append, String.append_empty]

/-- On a list whose adjacent spans never overlap, the merge loop is the
identity: the overlap branch is never taken and every span is emitted as is. -/
theorem mergeLoopN_of_chain :
    ∀ (n : Nat) (l : List Span),
      sortedDisjoint l = true → mergeLoopN n l = l := by
  intro n
  induction n with
  | zero => intro l _; rfl
  | succ n ih =>
    intro l hl
    match l with
    | [] => rfl
    | [s] => rfl
    | s0 :: s1 :: rest =>
      simp only [sortedDisjoint, Bool.and_eq_true, decide_eq_true_eq] at hl
      obtain ⟨h01, htail⟩ := hl
      simp only [mergeLoopN, if_neg (by omega : ¬ s1.start < s0.stop)]
      rw [ih (s1 :: rest) htail]

/-- C8: on pairwise non-overlapping spans (adjacent spans may touch at a
boundary), `merge` returns exactly the input spans, sorted, with ranges and
attributes unchanged; in particular `merge(s, []) = s` for an already-sorted,
disjoint `s`, and spans touching at a boundary stay separate. -/
theorem merge_disjoint_id :
    (∀ a b : List Span,
      sortedDisjoint (sortSpans (a ++ b)) = true →
        merge a b = sortSpans (a ++ b)) ∧
    (∀ s : List Span,
      List.Sorted spanLEP s → sortedDisjoint s = true →
        merge s [] = s) := by
  constructor
  · intro a b h
    simp only [merge]
    exact mergeLoopN_of_chain _ _ h
  · intro s hsorted hchain
    have hs : sortSpans (s ++ []) = s := by
      rw [List.append_nil]
      exact hsorted.insertionSort_eq
    simp only [merge, hs]
    exact mergeLoopN_of_chain _ _ hchain

/-- Witness for C8 at a concrete input: two spans touching at offset 2 pass
through `merge` unchanged and are not combined. -/
theorem merge_disjoint_id_witness :
    merge [Span.new 0 2 boldAttrs] [Span.new 2 4 blueAttrs] =
      [Span.new 0 2 boldAttrs, Span.new 2 4 blueAttrs] ∧
    merge [Span.new 0 2 boldAttrs, Span.new 2 4 blueAttrs] [] =
      [Span.new 0 2 boldAttrs, Span.new 2 4 blueAttrs] := by
  constructor
  · have h := merge_disjoint_id.1 [Span.new 0 2 boldAttrs] [Span.new 2 4 blueAttrs]
      (by decide)
    rw [h]; decide
  · exact merge_disjoint_id.2 [Span.new 0 2 boldAttrs, Span.new 2 4 blueAttrs]
      (by decide) (by decide)

/-- Inserting a span that is below every element of the list puts it in front. -/
theorem orderedInsert_of_forall_le {s : Span} {l : List Span}
    (h : ∀ y ∈ l, spanLEP s y) :
    List.orderedInsert spanLEP s l = s :: l := by
  cases l with
  | nil => rfl
  | cons t ts =>
    simp only [List.orderedInsert]
    rw [if_pos (h t (List.mem_cons_self t ts))]

/-- Filtering commutes with `orderedInsert` into a sorted list: the inserted
element survives exactly when the predicate keeps it. -/
theorem filter_orderedInsert (p : Span → Bool) (s : Span) :
    ∀ l : List Span, List.Sorted spanLEP l →
      (List.orderedInsert spanLEP s l).filter p =
        if p s then List.orderedInsert spanLEP s (l.filter p) else l.filter p := by
  intro l
  induction l with
  | nil =>
    intro _
    by_cases hp : p s = true <;> simp [List.orderedInsert, List.filter, hp]
  | cons t ts ih =>
    intro hsort
    simp only [List.orderedInsert]
    by_cases hst : spanLEP s t
    · rw [if_pos hst]
      by_cases hp : p s = true
      · rw [if_pos hp, List.filter_cons_of_pos hp]
        rw [orderedInsert_of_forall_le]
        intro y hy
        have hy' : y ∈ t :: ts := List.mem_of_mem_filter hy
        rcases List.mem_cons.mp hy' with rfl | hyts
        · exact hst
        · exact Trans.trans hst (List.rel_of_sorted_cons hsort y hyts)
      · rw [if_neg hp, List.filter_cons_of_neg hp]
    · rw [if_neg hst, List.filter_cons]
      rw [ih hsort.of_cons]
      by_cases hps : p s = true <;> by_cases hp : p t = true <;>
        simp [hp, hps, List.filter_cons, List.orderedInsert, if_neg hst]

/-- Stable sorting commutes with filtering. -/
theorem sortSpans_filter (p : Span → Bool) :
    ∀ l : List Span, (sortSpans l).filter p = sortSpans (l.filter p) := by
  intro l
  induction l with
  | nil => rfl
  | cons s ts ih =>
    simp only [sortSpans, List.insertionSort] at *
    rw [filter_orderedInsert p s _ (List.sorted_insertionSort spanLEP ts)]
    rw [List.filter_cons]
    by_cases hp : p s = true <;> simp [hp, List.insertionSort, ih]

/-- The render loop ignores spans that end before the window offset: its
result on any list equals its result on the list with those spans removed. -/
theorem renderGo_skip (text : List Char) (boff : Nat) (mode : Mode) :
    ∀ (l : List Span) (x : Nat) (acc : String),
      renderGo text boff mode l x acc =
        renderGo text boff mode (l.filter fun s => decide (boff ≤ s.stop)) x acc := by
  intro l
  induction l with
  | nil => intro x acc; rfl
  | cons s rest ih =>
    intro x acc
    by_cases h : s.stop < boff
    · rw [List.filter_cons_of_neg (by simpa using (by omega : ¬ boff ≤ s.stop))]
      simp only [renderGo, if_pos h]
      exact ih x acc
    · rw [List.filter_cons_of_pos (by simpa using (by omega : boff ≤ s.stop))]
      simp only [renderGo, if_neg h]
      exact ih _ _

/-- C7: rendering with an offset shows only the visible window: (1) spans
ending before the window offset contribute nothing — filtering them out of
the input does not change the output; (2) a single span is clipped to the
window with `start = min(max(boff, s.start) - boff, len)` and
`end = min(s.stop - boff, len)`, the text outside the span passing through
unstyled; (3) the spec's concrete markup scenario at offset 7. -/
theorem render_offset_window (text : List Char) (boff : Nat) (spans : List Span)
    (mode : Mode) (s : Span) :
    render_with_options text boff spans mode =
      render_with_options text boff (spans.filter fun t => decide (boff ≤ t.stop)) mode ∧
    render_with_options text boff [s] mode =
      (if s.stop < boff then String.mk text
       else
         String.mk (text.take (min (max boff s.start - boff) text.length)) ++
           ((if min (max boff s.start - boff) text.length <
                 min (s.stop - boff) text.length then
               s.attrs.render_with_mode
                 (strSlice text (min (max boff s.start - boff) text.length)
                   (min (s.stop - boff) text.length)) mode
             else "") ++
             String.mk (text.drop (min (s.stop - boff) text.length)))) ∧
    render_with_options "there.".toList 7
        [Span.new 7 12 greenAttrs, Span.new 12 13 boldAttrs] .markup =
      "<fg:Green>there</fg:Green><b>.</b>" := by
  refine ⟨?_, ?_, by decide⟩
  · rw [render_with_options, renderGo_skip, sortSpans_filter, render_with_options]
  · have hsort1 : sortSpans [s] = [s] := rfl
    rw [render_with_options, hsort1]
    by_cases hskip : s.stop < boff
    · simp only [renderGo, if_pos hskip, strSlice]
      by_cases hlen : 0 < text.length
      · rw [if_pos hlen]
        simp [List.take_length, String.empty_append]
      · rw [if_neg hlen]
        have : text = [] := by
          cases text with
          | nil => rfl
          | cons c cs => simp at hlen
        rw [this]
    · simp only [renderGo, if_neg hskip]
      have hacc1 :
          (if min (max boff s.start - boff) text.length > 0 then
              "" ++ strSlice text 0 (min (max boff s.start - boff) text.length)
            else "") =
          String.mk (text.take (min (max boff s.start - boff) text.length)) := by
        by_cases h0 : min (max boff s.start - boff) text.length > 0
        · rw [if_pos h0, String.empty_append, strSlice, List.drop_zero]
        · rw [if_neg h0]
          have : min (max boff s.start - boff) text.length = 0 := by omega
          rw [this, List.take_zero]
      rw [hacc1]
      have hlast : ∀ acc2 : String,
          (if min (s.stop - boff) text.length < text.length then
              acc2 ++ strSlice text (min (s.stop - boff) text.length) text.length
            else acc2) =
          acc2 ++ String.mk (text.drop (min (s.stop - boff) text.length)) := by
        intro acc2
        by_cases hend : min (s.stop - boff) text.length < text.length
        · rw [if_pos hend, strSlice, List.take_length]
        · rw [if_neg hend]
          have : text.drop (min (s.stop - boff) text.length) = [] :=
            List.drop_eq_nil_of_le (by omega)
          rw [this]
          exact (String.append_empty acc2).symm
      by_cases hmid : min (s.stop - boff) text.length >
          min (max boff s.start - boff) text.length
      · rw [if_pos hmid, hlast, if_pos hmid, String.append_assoc]
      · rw [if_neg hmid, hlast, if_neg hmid, String.empty_append]

/-- Checked `usize` subtraction: fails (like a Rust panic) on underflow. -/
def subChecked (a b : Nat) : Option Nat :=
  if b ≤ a then some (a - b) else none

/-- Checked slice `text[lo..hi]`: fails (like a Rust panic) when the bounds
are inverted or past the end of the text. -/
def sliceChecked (text : List Char) (lo hi : Nat) : Option String :=
  if lo ≤ hi ∧ hi ≤ text.length then some (strSlice text lo hi) else none

/-- The render loop with every subtraction and every slice checked: any
underflow or out-of-bounds slice the Rust code could panic on surfaces as
`none`. -/
def renderGoChecked (text : List Char) (boff : Nat) (mode : Mode) :
    List Span → Nat → String → Option String
  | [], x, acc =>
    if x < text.length then do
      let t ← sliceChecked text x text.length
      pure (acc ++ t)
    else pure acc
  | s :: rest, x, acc =>
    if s.stop < boff then
      renderGoChecked text boff mode rest x acc
    else do
      let d1 ← subChecked (max boff s.start) boff
      let start := min d1 text.length
      let acc1 ← if start > x then do
          let t ← sliceChecked text x start
          pure (acc ++ t)
        else pure acc
      let d2 ← subChecked s.stop boff
      let e := min d2 text.length
      let acc2 ← if e > start then do
          let t ← sliceChecked text start e
          pure (acc1 ++ s.attrs.render_with_mode t mode)
        else pure acc1
      renderGoChecked text boff mode rest e acc2

/-- The function `render_with_options` with checked arithmetic and slicing. -/
def render_with_options_checked (text : List Char) (boff : Nat)
    (spans : List Span) (mode : Mode) : Option String :=
  renderGoChecked text boff mode (sortSpans spans) 0 ""

/-- Every check in the render loop passes: the skip guard rules out underflow
in `s.stop - boff`, `max boff s.start - boff` never underflows, and every
slice is within bounds. -/
theorem renderGoChecked_eq (text : List Char) (boff : Nat) (mode : Mode) :
    ∀ (l : List Span) (x : Nat) (acc : String),
      renderGoChecked text boff mode l x acc =
        some (renderGo text boff mode l x acc) := by
  intro l
  induction l with
  | nil =>
    intro x acc
    simp only [renderGoChecked, renderGo]
    by_cases h : x < text.length
    · rw [if_pos h, if_pos h]
      rw [sliceChecked, if_pos ⟨by omega, le_refl _⟩]
      rfl
    · rw [if_neg h, if_neg h]
      rfl
  | cons s rest ih =>
    intro x acc
    simp only [renderGoChecked, renderGo]
    by_cases hskip : s.stop < boff
    · rw [if_pos hskip, if_pos hskip]
      exact ih x acc
    · rw [if_neg hskip, if_neg hskip]
      rw [subChecked, if_pos (le_max_left boff s.start)]
      rw [subChecked, if_pos (by omega : boff ≤ s.stop)]
      simp only [Option.pure_def, Option.some_bind, Option.bind_eq_bind]
      by_cases h1 : min (max boff s.start - boff) text.length > x
      · rw [if_pos h1, if_pos h1]
        rw [sliceChecked, if_pos ⟨by omega, min_le_right _ _⟩]
        simp only [Option.pure_def, Option.some_bind, Option.bind_eq_bind]
        by_cases h2 : min (s.stop - boff) text.length >
            min (max boff s.start - boff) text.length
        · rw [if_pos h2, if_pos h2]
          rw [sliceChecked, if_pos ⟨by omega, min_le_right _ _⟩]
          try simp only [Option.pure_def, Option.some_bind, Option.bind_eq_bind]
          exact ih _ _
        · rw [if_neg h2, if_neg h2]
          try simp only [Option.pure_def, Option.some_bind, Option.bind_eq_bind]
          exact ih _ _
      · rw [if_neg h1, if_neg h1]
        try simp only [Option.pure_def, Option.some_bind, Option.bind_eq_bind]
        by_cases h2 : min (s.stop - boff) text.length >
            min (max boff s.start - boff) text.length
        · rw [if_pos h2, if_pos h2]
          rw [sliceChecked, if_pos ⟨by omega, min_le_right _ _⟩]
          try simp only [Option.pure_def, Option.some_bind, Option.bind_eq_bind]
          exact ih _ _
        · rw [if_neg h2, if_neg h2]
          try simp only [Option.pure_def, Option.some_bind, Option.bind_eq_bind]
          exact ih _ _

/-- C9: the render pass is total — with every offset subtraction and every
text slice checked, no input makes any check fail: the checked renderer
always returns `some` of the unchecked result. -/
theorem render_never_fails (text : List Char) (boff : Nat) (spans : List Span)
    (mode : Mode) :
    render_with_options_checked text boff spans mode =
      some (render_with_options text boff spans mode) :=
  renderGoChecked_eq text boff mode (sortSpans spans) 0 ""

/-- Spans ordered by their start offset. -/
abbrev startLE (p q : Span) : Prop :=
  p.start ≤ q.start

/-- Some span of the list starts at or below `x`. -/
abbrev lowStart (l : List Span) (x : Nat) : Prop :=
  ∃ t ∈ l, t.start ≤ x

theorem covers_nil (x : Nat) : covers [] x ↔ False := by
  simp [covers]

theorem covers_cons (s : Span) (l : List Span) (x : Nat) :
    covers (s :: l) x ↔ inSpan s x ∨ covers l x := by
  simp [covers]

theorem covers_append (l1 l2 : List Span) (x : Nat) :
    covers (l1 ++ l2) x ↔ covers l1 x ∨ covers l2 x := by
  simp [covers, or_and_right, exists_or]

theorem covers_perm {l1 l2 : List Span} (h : l1.Perm l2) (x : Nat) :
    covers l1 x ↔ covers l2 x := by
  unfold covers
  constructor <;> rintro ⟨s, hs, hx⟩
  · exact ⟨s, h.mem_iff.mp hs, hx⟩
  · exact ⟨s, h.mem_iff.mpr hs, hx⟩

/-- Step shape: the two heads do not overlap; the head is emitted. -/
theorem mergeLoopN_step_disjoint (n : Nat) (s0 s1 : Span) (rest : List Span)
    (hov : ¬ s1.start < s0.stop) :
    mergeLoopN (n + 1) (s0 :: s1 :: rest) = s0 :: mergeLoopN n (s1 :: rest) := by
  simp only [mergeLoopN, if_neg hov]

/-- Step shape: overlap, head starts strictly first, head ends strictly first. -/
theorem mergeLoopN_step_split_lt (n : Nat) (s0 s1 : Span) (rest : List Span)
    (hov : s1.start < s0.stop) (hsplit : s0.start < s1.start)
    (hcmp : s0.stop < s1.stop) :
    mergeLoopN (n + 1) (s0 :: s1 :: rest) =
      ⟨s0.start, s1.start, s0.attrs⟩ ::
        ⟨s1.start, s0.stop, s0.attrs.merged s1.attrs⟩ ::
          mergeLoopN n (⟨s0.stop, s1.stop, s1.attrs⟩ :: rest) := by
  have hne : ¬ (s1.stop = s0.stop) := by omega
  simp [mergeLoopN, hov, hsplit, hcmp, hne]

/-- Step shape: overlap, head starts strictly first, second ends strictly first. -/
theorem mergeLoopN_step_split_gt (n : Nat) (s0 s1 : Span) (rest : List Span)
    (hov : s1.start < s0.stop) (hsplit : s0.start < s1.start)
    (hcmp : s1.stop < s0.stop) :
    mergeLoopN (n + 1) (s0 :: s1 :: rest) =
      ⟨s0.start, s1.start, s0.attrs⟩ ::
        ⟨s1.start, s1.stop, s0.attrs.merged s1.attrs⟩ ::
          mergeLoopN n (⟨s1.stop, s0.stop, s0.attrs⟩ :: rest) := by
  have hc : ¬ (s0.stop < s1.stop) := by omega
  have hne : ¬ (s0.stop = s1.stop) := by omega
  simp [mergeLoopN, hov, hsplit, hc, hne]

/-- Step shape: overlap, head starts strictly first, equal ends (removal). -/
theorem mergeLoopN_step_split_eq (n : Nat) (s0 s1 : Span) (rest : List Span)
    (hov : s1.start < s0.stop) (hsplit : s0.start < s1.start)
    (hcmp : s0.stop = s1.stop) :
    mergeLoopN (n + 1) (s0 :: s1 :: rest) =
      ⟨s0.start, s1.start, s0.attrs⟩ ::
        mergeLoopN n (⟨s1.start, s1.stop, s0.attrs.merged s1.attrs⟩ :: rest) := by
  have hc : ¬ (s0.stop < s1.stop) := by omega
  simp [mergeLoopN, hov, hsplit, hc, hcmp]
  intro h
  exact absurd h (by omega)

/-- Step shape: overlap, no split, head ends strictly first. -/
theorem mergeLoopN_step_nosplit_lt (n : Nat) (s0 s1 : Span) (rest : List Span)
    (hov : s1.start < s0.stop) (hsplit : ¬ s0.start < s1.start)
    (hcmp : s0.stop < s1.stop) :
    mergeLoopN (n + 1) (s0 :: s1 :: rest) =
      ⟨s1.start, s0.stop, s0.attrs.merged s1.attrs⟩ ::
        mergeLoopN n (⟨s0.stop, s1.stop, s1.attrs⟩ :: rest) := by
  have hne : ¬ (s1.stop = s0.stop) := by omega
  simp [mergeLoopN, hov, hsplit, hcmp, hne]

/-- Step shape: overlap, no split, second ends strictly first. -/
theorem mergeLoopN_step_nosplit_gt (n : Nat) (s0 s1 : Span) (rest : List Span)
    (hov : s1.start < s0.stop) (hsplit : ¬ s0.start < s1.start)
    (hcmp : s1.stop < s0.stop) :
    mergeLoopN (n + 1) (s0 :: s1 :: rest) =
      ⟨s1.start, s1.stop, s0.attrs.merged s1.attrs⟩ ::
        mergeLoopN n (⟨s1.stop, s0.stop, s0.attrs⟩ :: rest) := by
  have hc : ¬ (s0.stop < s1.stop) := by omega
  have hne : ¬ (s0.stop = s1.stop) := by omega
  simp [mergeLoopN, hov, hsplit, hc, hne]

/-- Step shape: overlap, no split, equal ends (removal). -/
theorem mergeLoopN_step_nosplit_eq (n : Nat) (s0 s1 : Span) (rest : List Span)
    (hov : s1.start < s0.stop) (hsplit : ¬ s0.start < s1.start)
    (hcmp : s0.stop = s1.stop) :
    mergeLoopN (n + 1) (s0 :: s1 :: rest) =
      mergeLoopN n (⟨s1.start, s1.stop, s0.attrs.merged s1.attrs⟩ :: rest) := by
  have hc : ¬ (s0.stop < s1.stop) := by omega
  simp [mergeLoopN, hov, hsplit, hc, hcmp]
  intro h
  exact absurd h (by omega)

/-- Invariant of the merge loop's working list: it is a (possibly modified)
block of at most two spans followed by a still-sorted suffix of the original
sorted input, and every point below the start of a block span but at or above
some list element's start is already accounted for (by the emitted spans `E`
or by the list itself). -/
def MInv (E : Nat → Prop) (l : List Span) : Prop :=
  ∃ u v, l = u ++ v ∧ u.length ≤ 2 ∧ List.Pairwise startLE v ∧
    ∀ s ∈ u, ∀ x, lowStart l x → x < s.start → (E x ∨ covers l x)

theorem MInv_rest {E : Nat → Prop} {s0 s1 : Span} {rest : List Span}
    (h : MInv E (s0 :: s1 :: rest)) : List.Pairwise startLE rest := by
  obtain ⟨u, v, hl, hu, hpv, _⟩ := h
  match u, hl, hu with
  | [], hl, _ =>
    rw [List.nil_append] at hl
    rw [← hl] at hpv
    exact hpv.of_cons.of_cons
  | [a], hl, _ =>
    simp only [List.cons_append, List.nil_append, List.cons.injEq] at hl
    obtain ⟨rfl, hl⟩ := hl
    rw [← hl] at hpv
    exact hpv.of_cons
  | [a, b], hl, _ =>
    simp only [List.cons_append, List.nil_append, List.cons.injEq] at hl
    obtain ⟨rfl, rfl, hl⟩ := hl
    rw [← hl] at hpv
    exact hpv
  | a :: b :: c :: u', hl, hu => simp at hu

theorem MInv_s0 {E : Nat → Prop} {s0 s1 : Span} {rest : List Span}
    (h : MInv E (s0 :: s1 :: rest)) :
    (s0.start ≤ s1.start ∧ ∀ t ∈ rest, s1.start ≤ t.start) ∨
      (∀ x, lowStart (s0 :: s1 :: rest) x → x < s0.start →
        (E x ∨ covers (s0 :: s1 :: rest) x)) := by
  obtain ⟨u, v, hl, hu, hpv, hcov⟩ := h
  match u, hl, hu with
  | [], hl, _ =>
    rw [List.nil_append] at hl
    rw [← hl] at hpv
    left
    refine ⟨List.rel_of_pairwise_cons hpv (List.mem_cons_self s1 rest), ?_⟩
    exact fun t ht => List.rel_of_pairwise_cons hpv.of_cons ht
  | [a], hl, _ =>
    simp only [List.cons_append, List.nil_append, List.cons.injEq] at hl
    obtain ⟨rfl, hl⟩ := hl
    right
    intro x hx hxs
    exact hcov s0 (List.mem_singleton_self s0) x hx hxs
  | [a, b], hl, _ =>
    simp only [List.cons_append, List.nil_append, List.cons.injEq] at hl
    obtain ⟨rfl, rfl, hl⟩ := hl
    right
    intro x hx hxs
    exact hcov s0 (List.mem_cons_self s0 [s1]) x hx hxs
  | a :: b :: c :: u', hl, hu => simp at hu

theorem MInv_s1 {E : Nat → Prop} {s0 s1 : Span} {rest : List Span}
    (h : MInv E (s0 :: s1 :: rest)) :
    (∀ t ∈ rest, s1.start ≤ t.start) ∨
      (∀ x, lowStart (s0 :: s1 :: rest) x → x < s1.start →
        (E x ∨ covers (s0 :: s1 :: rest) x)) := by
  obtain ⟨u, v, hl, hu, hpv, hcov⟩ := h
  match u, hl, hu with
  | [], hl, _ =>
    rw [List.nil_append] at hl
    rw [← hl] at hpv
    exact Or.inl fun t ht => List.rel_of_pairwise_cons hpv.of_cons ht
  | [a], hl, _ =>
    simp only [List.cons_append, List.nil_append, List.cons.injEq] at hl
    obtain ⟨rfl, hl⟩ := hl
    rw [← hl] at hpv
    exact Or.inl fun t ht => List.rel_of_pairwise_cons hpv ht
  | [a, b], hl, _ =>
    simp only [List.cons_append, List.nil_append, List.cons.injEq] at hl
    obtain ⟨rfl, rfl, hl⟩ := hl
    right
    intro x hx hxs
    exact hcov s1 (by simp) x hx hxs
  | a :: b :: c :: u', hl, hu => simp at hu

theorem MInv_single {E' : Nat → Prop} {w : Span} {rest : List Span}
    (hrest : List.Pairwise startLE rest)
    (hcovw : ∀ x, lowStart (w :: rest) x → x < w.start →
      (E' x ∨ covers (w :: rest) x)) :
    MInv E' (w :: rest) := by
  refine ⟨[w], rest, rfl, by simp, hrest, ?_⟩
  intro s hs x hx hxs
  rw [List.mem_singleton] at hs
  subst hs
  exact hcovw x hx hxs

set_option maxHeartbeats 1000000 in
/-- Coverage is preserved by every run of the merge loop, relative to a set
`E` of already-emitted points, on any working list satisfying the
invariant. -/
theorem mergeLoopN_covers :
    ∀ (n : Nat) (l : List Span) (E : Nat → Prop),
      n = l.length → WfSpans l → MInv E l →
      ∀ x, (E x ∨ covers (mergeLoopN n l) x) ↔ (E x ∨ covers l x) := by
  intro n
  induction n with
  | zero =>
    intro l E _ _ _ x
    exact Iff.rfl
  | succ n ih =>
    intro l E hn hwf hinv x
    match l with
    | [] => exact Iff.rfl
    | [s] => exact Iff.rfl
    | s0 :: s1 :: rest =>
      have hn' : n = (s1 :: rest).length := by
        simp only [List.length_cons] at hn ⊢; omega
      have hwf0 : s0.start ≤ s0.stop := hwf s0 (by simp)
      have hwf1 : s1.start ≤ s1.stop := hwf s1 (by simp)
      have hrest : List.Pairwise startLE rest := MInv_rest hinv
      have hwfr : WfSpans rest := fun t ht => hwf t (by simp [ht])
      by_cases hov : s1.start < s0.stop
      · rcases Nat.lt_trichotomy s0.stop s1.stop with hcmp | hcmp | hcmp
        · by_cases hsplit : s0.start < s1.start
          · -- split, head ends strictly first
            rw [mergeLoopN_step_split_lt n s0 s1 rest hov hsplit hcmp]
            have hwf' : WfSpans (⟨s0.stop, s1.stop, s1.attrs⟩ :: rest) := by
              intro t ht
              rcases List.mem_cons.mp ht with rfl | htr
              · exact le_of_lt hcmp
              · exact hwfr t htr
            have hinv' : MInv
                (fun y => E y ∨ inSpan ⟨s0.start, s1.start, s0.attrs⟩ y ∨
                  inSpan ⟨s1.start, s0.stop, s0.attrs.merged s1.attrs⟩ y)
                (⟨s0.stop, s1.stop, s1.attrs⟩ :: rest) := by
              refine MInv_single hrest ?_
              intro y hlow hylt
              have hylt' : y < s0.stop := hylt
              by_cases hya1 : s1.start ≤ y
              · have hd : s1.start ≤ y ∧ y < s0.stop := ⟨hya1, hylt'⟩
                exact Or.inl (Or.inr (Or.inr hd))
              · by_cases hya0 : s0.start ≤ y
                · have hp : s0.start ≤ y ∧ y < s1.start := ⟨hya0, by omega⟩
                  exact Or.inl (Or.inr (Or.inl hp))
                · rcases MInv_s0 hinv with ⟨h01, h1r⟩ | hcov0
                  · exfalso
                    obtain ⟨t, ht, hty⟩ := hlow
                    rcases List.mem_cons.mp ht with rfl | htr
                    · have : s0.stop ≤ y := hty
                      omega
                    · exact absurd (h1r t htr) (by omega)
                  · have hlow' : lowStart (s0 :: s1 :: rest) y := by
                      obtain ⟨t, ht, hty⟩ := hlow
                      rcases List.mem_cons.mp ht with rfl | htr
                      · have : s0.stop ≤ y := hty
                        omega
                      · exact ⟨t, by simp [htr], hty⟩
                    rcases hcov0 y hlow' (by omega) with hE | hc
                    · exact Or.inl (Or.inl hE)
                    · rw [covers_cons, covers_cons] at hc
                      rcases hc with h0 | h1 | hr
                      · exact absurd h0.1 (by omega)
                      · exact absurd h1.1 (by omega)
                      · exact Or.inr (by rw [covers_cons]; exact Or.inr hr)
            have hstep := ih (⟨s0.stop, s1.stop, s1.attrs⟩ :: rest)
              (fun y => E y ∨ inSpan ⟨s0.start, s1.start, s0.attrs⟩ y ∨
                inSpan ⟨s1.start, s0.stop, s0.attrs.merged s1.attrs⟩ y)
              (by simp only [List.length_cons] at hn ⊢; omega) hwf' hinv' x
            rw [covers_cons, covers_cons, covers_cons, covers_cons]
            rw [covers_cons] at hstep
            try simp only at hstep
            constructor
            · rintro (hE | hp | hd | hrec)
              · exact Or.inl hE
              · have hp' : s0.start ≤ x ∧ x < s1.start := hp
                exact Or.inr (Or.inl ⟨hp'.1, by omega⟩)
              · have hd' : s1.start ≤ x ∧ x < s0.stop := hd
                exact Or.inr (Or.inl ⟨by omega, hd'.2⟩)
              · rcases hstep.mp (Or.inr hrec) with (hE | hp | hd) | htl | hr
                · exact Or.inl hE
                · have hp' : s0.start ≤ x ∧ x < s1.start := hp
                  exact Or.inr (Or.inl ⟨hp'.1, by omega⟩)
                · have hd' : s1.start ≤ x ∧ x < s0.stop := hd
                  exact Or.inr (Or.inl ⟨by omega, hd'.2⟩)
                · have htl' : s0.stop ≤ x ∧ x < s1.stop := htl
                  exact Or.inr (Or.inr (Or.inl ⟨by omega, htl'.2⟩))
                · exact Or.inr (Or.inr (Or.inr hr))
            · rintro (hE | h0 | h1 | hr)
              · exact Or.inl hE
              · by_cases hx1 : x < s1.start
                · have hp : s0.start ≤ x ∧ x < s1.start := ⟨h0.1, hx1⟩
                  exact Or.inr (Or.inl hp)
                · have hd : s1.start ≤ x ∧ x < s0.stop := ⟨by omega, h0.2⟩
                  exact Or.inr (Or.inr (Or.inl hd))
              · by_cases hx0 : x < s0.stop
                · have hd : s1.start ≤ x ∧ x < s0.stop := ⟨h1.1, hx0⟩
                  exact Or.inr (Or.inr (Or.inl hd))
                · have htl : inSpan ⟨s0.stop, s1.stop, s1.attrs⟩ x :=
                    (⟨by omega, h1.2⟩ : s0.stop ≤ x ∧ x < s1.stop)
                  rcases hstep.mpr (Or.inr (Or.inl htl)) with (hE | hp | hd) | hrec
                  · exact Or.inl hE
                  · exact Or.inr (Or.inl hp)
                  · exact Or.inr (Or.inr (Or.inl hd))
                  · exact Or.inr (Or.inr (Or.inr hrec))
              · rcases hstep.mpr (Or.inr (Or.inr hr)) with (hE | hp | hd) | hrec
                · exact Or.inl hE
                · exact Or.inr (Or.inl hp)
                · exact Or.inr (Or.inr (Or.inl hd))
                · exact Or.inr (Or.inr (Or.inr hrec))
          · -- no split, head ends strictly first
            rw [mergeLoopN_step_nosplit_lt n s0 s1 rest hov hsplit hcmp]
            have hwf' : WfSpans (⟨s0.stop, s1.stop, s1.attrs⟩ :: rest) := by
              intro t ht
              rcases List.mem_cons.mp ht with rfl | htr
              · exact le_of_lt hcmp
              · exact hwfr t htr
            have hinv' : MInv
                (fun y => E y ∨ inSpan ⟨s1.start, s0.stop, s0.attrs.merged s1.attrs⟩ y)
                (⟨s0.stop, s1.stop, s1.attrs⟩ :: rest) := by
              refine MInv_single hrest ?_
              intro y hlow hylt
              have hylt' : y < s0.stop := hylt
              by_cases hya1 : s1.start ≤ y
              · have hd : s1.start ≤ y ∧ y < s0.stop := ⟨hya1, hylt'⟩
                exact Or.inl (Or.inr hd)
              · rcases MInv_s1 hinv with hle | hcov1
                · exfalso
                  obtain ⟨t, ht, hty⟩ := hlow
                  rcases List.mem_cons.mp ht with rfl | htr
                  · have : s0.stop ≤ y := hty
                    omega
                  · exact absurd (hle t htr) (by omega)
                · have hlow' : lowStart (s0 :: s1 :: rest) y := by
                    obtain ⟨t, ht, hty⟩ := hlow
                    rcases List.mem_cons.mp ht with rfl | htr
                    · have : s0.stop ≤ y := hty
                      omega
                    · exact ⟨t, by simp [htr], hty⟩
                  rcases hcov1 y hlow' (by omega) with hE | hc
                  · exact Or.inl (Or.inl hE)
                  · rw [covers_cons, covers_cons] at hc
                    rcases hc with h0 | h1 | hr
                    · exact absurd h0.1 (by omega)
                    · exact absurd h1.1 (by omega)
                    · exact Or.inr (by rw [covers_cons]; exact Or.inr hr)
            have hstep := ih (⟨s0.stop, s1.stop, s1.attrs⟩ :: rest)
              (fun y => E y ∨ inSpan ⟨s1.start, s0.stop, s0.attrs.merged s1.attrs⟩ y)
              (by simp only [List.length_cons] at hn ⊢; omega) hwf' hinv' x
            rw [covers_cons, covers_cons, covers_cons]
            rw [covers_cons] at hstep
            try simp only at hstep
            constructor
            · rintro (hE | hd | hrec)
              · exact Or.inl hE
              · have hd' : s1.start ≤ x ∧ x < s0.stop := hd
                exact Or.inr (Or.inr (Or.inl ⟨hd'.1, by omega⟩))
              · rcases hstep.mp (Or.inr hrec) with (hE | hd) | htl | hr
                · exact Or.inl hE
                · have hd' : s1.start ≤ x ∧ x < s0.stop := hd
                  exact Or.inr (Or.inr (Or.inl ⟨hd'.1, by omega⟩))
                · have htl' : s0.stop ≤ x ∧ x < s1.stop := htl
                  exact Or.inr (Or.inr (Or.inl ⟨by omega, htl'.2⟩))
                · exact Or.inr (Or.inr (Or.inr hr))
            · rintro (hE | h0 | h1 | hr)
              · exact Or.inl hE
              · have hd : s1.start ≤ x ∧ x < s0.stop := ⟨by omega, h0.2⟩
                exact Or.inr (Or.inl hd)
              · by_cases hx0 : x < s0.stop
                · have hd : s1.start ≤ x ∧ x < s0.stop := ⟨h1.1, hx0⟩
                  exact Or.inr (Or.inl hd)
                · have htl : inSpan ⟨s0.stop, s1.stop, s1.attrs⟩ x :=
                    (⟨by omega, h1.2⟩ : s0.stop ≤ x ∧ x < s1.stop)
                  rcases hstep.mpr (Or.inr (Or.inl htl)) with (hE | hd) | hrec
                  · exact Or.inl hE
                  · exact Or.inr (Or.inl hd)
                  · exact Or.inr (Or.inr hrec)
              · rcases hstep.mpr (Or.inr (Or.inr hr)) with (hE | hd) | hrec
                · exact Or.inl hE
                · exact Or.inr (Or.inl hd)
                · exact Or.inr (Or.inr hrec)
        · by_cases hsplit : s0.start < s1.start
          · -- split, equal ends: the second span is removed
            rw [mergeLoopN_step_split_eq n s0 s1 rest hov hsplit hcmp]
            have hwf' : WfSpans (⟨s1.start, s1.stop, s0.attrs.merged s1.attrs⟩ :: rest) := by
              intro t ht
              rcases List.mem_cons.mp ht with rfl | htr
              · exact hwf1
              · exact hwfr t htr
            have hinv' : MInv
                (fun y => E y ∨ inSpan ⟨s0.start, s1.start, s0.attrs⟩ y)
                (⟨s1.start, s1.stop, s0.attrs.merged s1.attrs⟩ :: rest) := by
              refine MInv_single hrest ?_
              intro y hlow hylt
              have hylt' : y < s1.start := hylt
              by_cases hya0 : s0.start ≤ y
              · have hp : s0.start ≤ y ∧ y < s1.start := ⟨hya0, hylt'⟩
                exact Or.inl (Or.inr hp)
              · rcases MInv_s0 hinv with ⟨h01, h1r⟩ | hcov0
                · exfalso
                  obtain ⟨t, ht, hty⟩ := hlow
                  rcases List.mem_cons.mp ht with rfl | htr
                  · have : s1.start ≤ y := hty
                    omega
                  · exact absurd (h1r t htr) (by omega)
                · have hlow' : lowStart (s0 :: s1 :: rest) y := by
                    obtain ⟨t, ht, hty⟩ := hlow
                    rcases List.mem_cons.mp ht with rfl | htr
                    · have : s1.start ≤ y := hty
                      omega
                    · exact ⟨t, by simp [htr], hty⟩
                  rcases hcov0 y hlow' (by omega) with hE | hc
                  · exact Or.inl (Or.inl hE)
                  · rw [covers_cons, covers_cons] at hc
                    rcases hc with h0 | h1 | hr
                    · exact absurd h0.1 (by omega)
                    · exact absurd h1.1 (by omega)
                    · exact Or.inr (by rw [covers_cons]; exact Or.inr hr)
            have hstep := ih (⟨s1.start, s1.stop, s0.attrs.merged s1.attrs⟩ :: rest)
              (fun y => E y ∨ inSpan ⟨s0.start, s1.start, s0.attrs⟩ y)
              (by simp only [List.length_cons] at hn ⊢; omega) hwf' hinv' x
            rw [covers_cons, covers_cons, covers_cons]
            rw [covers_cons] at hstep
            try simp only at hstep
            constructor
            · rintro (hE | hp | hrec)
              · exact Or.inl hE
              · have hp' : s0.start ≤ x ∧ x < s1.start := hp
                exact Or.inr (Or.inl ⟨hp'.1, by omega⟩)
              · rcases hstep.mp (Or.inr hrec) with (hE | hp) | hd | hr
                · exact Or.inl hE
                · have hp' : s0.start ≤ x ∧ x < s1.start := hp
                  exact Or.inr (Or.inl ⟨hp'.1, by omega⟩)
                · have hd' : s1.start ≤ x ∧ x < s1.stop := hd
                  exact Or.inr (Or.inr (Or.inl hd'))
                · exact Or.inr (Or.inr (Or.inr hr))
            · rintro (hE | h0 | h1 | hr)
              · exact Or.inl hE
              · by_cases hx1 : x < s1.start
                · have hp : s0.start ≤ x ∧ x < s1.start := ⟨h0.1, hx1⟩
                  exact Or.inr (Or.inl hp)
                · have hd : inSpan ⟨s1.start, s1.stop, s0.attrs.merged s1.attrs⟩ x :=
                    (⟨by omega, by omega⟩ : s1.start ≤ x ∧ x < s1.stop)
                  rcases hstep.mpr (Or.inr (Or.inl hd)) with (hE | hp) | hrec
                  · exact Or.inl hE
                  · exact Or.inr (Or.inl hp)
                  · exact Or.inr (Or.inr hrec)
              · have hd : inSpan ⟨s1.start, s1.stop, s0.attrs.merged s1.attrs⟩ x :=
                  (⟨h1.1, h1.2⟩ : s1.start ≤ x ∧ x < s1.stop)
                rcases hstep.mpr (Or.inr (Or.inl hd)) with (hE | hp) | hrec
                · exact Or.inl hE
                · exact Or.inr (Or.inl hp)
                · exact Or.inr (Or.inr hrec)
              · rcases hstep.mpr (Or.inr (Or.inr hr)) with (hE | hp) | hrec
                · exact Or.inl hE
                · exact Or.inr (Or.inl hp)
                · exact Or.inr (Or.inr hrec)
          · -- no split, equal ends: pure removal
            rw [mergeLoopN_step_nosplit_eq n s0 s1 rest hov hsplit hcmp]
            have hwf' : WfSpans (⟨s1.start, s1.stop, s0.attrs.merged s1.attrs⟩ :: rest) := by
              intro t ht
              rcases List.mem_cons.mp ht with rfl | htr
              · exact hwf1
              · exact hwfr t htr
            have hinv' : MInv E (⟨s1.start, s1.stop, s0.attrs.merged s1.attrs⟩ :: rest) := by
              refine MInv_single hrest ?_
              intro y hlow hylt
              have hylt' : y < s1.start := hylt
              rcases MInv_s1 hinv with hle | hcov1
              · exfalso
                obtain ⟨t, ht, hty⟩ := hlow
                rcases List.mem_cons.mp ht with rfl | htr
                · have : s1.start ≤ y := hty
                  omega
                · exact absurd (hle t htr) (by omega)
              · have hlow' : lowStart (s0 :: s1 :: rest) y := by
                  obtain ⟨t, ht, hty⟩ := hlow
                  rcases List.mem_cons.mp ht with rfl | htr
                  · have : s1.start ≤ y := hty
                    omega
                  · exact ⟨t, by simp [htr], hty⟩
                rcases hcov1 y hlow' (by omega) with hE | hc
                · exact Or.inl hE
                · rw [covers_cons, covers_cons] at hc
                  rcases hc with h0 | h1 | hr
                  · exact absurd h0.1 (by omega)
                  · exact absurd h1.1 (by omega)
                  · exact Or.inr (by rw [covers_cons]; exact Or.inr hr)
            have hstep := ih (⟨s1.start, s1.stop, s0.attrs.merged s1.attrs⟩ :: rest) E
              (by simp only [List.length_cons] at hn ⊢; omega) hwf' hinv' x
            rw [covers_cons, covers_cons]
            rw [covers_cons] at hstep
            try simp only at hstep
            constructor
            · rintro (hE | hrec)
              · exact Or.inl hE
              · rcases hstep.mp (Or.inr hrec) with hE | hd | hr
                · exact Or.inl hE
                · have hd' : s1.start ≤ x ∧ x < s1.stop := hd
                  exact Or.inr (Or.inr (Or.inl hd'))
                · exact Or.inr (Or.inr (Or.inr hr))
            · rintro (hE | h0 | h1 | hr)
              · exact Or.inl hE
              · have hd : inSpan ⟨s1.start, s1.stop, s0.attrs.merged s1.attrs⟩ x :=
                  (⟨by omega, by omega⟩ : s1.start ≤ x ∧ x < s1.stop)
                rcases hstep.mpr (Or.inr (Or.inl hd)) with hE | hrec
                · exact Or.inl hE
                · exact Or.inr hrec
              · have hd : inSpan ⟨s1.start, s1.stop, s0.attrs.merged s1.attrs⟩ x :=
                  (⟨h1.1, h1.2⟩ : s1.start ≤ x ∧ x < s1.stop)
                rcases hstep.mpr (Or.inr (Or.inl hd)) with hE | hrec
                · exact Or.inl hE
                · exact Or.inr hrec
              · rcases hstep.mpr (Or.inr (Or.inr hr)) with hE | hrec
                · exact Or.inl hE
                · exact Or.inr hrec
        · by_cases hsplit : s0.start < s1.start
          · -- split, second ends strictly first
            rw [mergeLoopN_step_split_gt n s0 s1 rest hov hsplit hcmp]
            have hwf' : WfSpans (⟨s1.stop, s0.stop, s0.attrs⟩ :: rest) := by
              intro t ht
              rcases List.mem_cons.mp ht with rfl | htr
              · exact le_of_lt hcmp
              · exact hwfr t htr
            have hinv' : MInv
                (fun y => E y ∨ inSpan ⟨s0.start, s1.start, s0.attrs⟩ y ∨
                  inSpan ⟨s1.start, s1.stop, s0.attrs.merged s1.attrs⟩ y)
                (⟨s1.stop, s0.stop, s0.attrs⟩ :: rest) := by
              refine MInv_single hrest ?_
              intro y hlow hylt
              have hylt' : y < s1.stop := hylt
              by_cases hya1 : s1.start ≤ y
              · have hd : s1.start ≤ y ∧ y < s1.stop := ⟨hya1, hylt'⟩
                exact Or.inl (Or.inr (Or.inr hd))
              · by_cases hya0 : s0.start ≤ y
                · have hp : s0.start ≤ y ∧ y < s1.start := ⟨hya0, by omega⟩
                  exact Or.inl (Or.inr (Or.inl hp))
                · rcases MInv_s0 hinv with ⟨h01, h1r⟩ | hcov0
                  · exfalso
                    obtain ⟨t, ht, hty⟩ := hlow
                    rcases List.mem_cons.mp ht with rfl | htr
                    · have : s1.stop ≤ y := hty
                      omega
                    · exact absurd (h1r t htr) (by omega)
                  · have hlow' : lowStart (s0 :: s1 :: rest) y := by
                      obtain ⟨t, ht, hty⟩ := hlow
                      rcases List.mem_cons.mp ht with rfl | htr
                      · have : s1.stop ≤ y := hty
                        omega
                      · exact ⟨t, by simp [htr], hty⟩
                    rcases hcov0 y hlow' (by omega) with hE | hc
                    · exact Or.inl (Or.inl hE)
                    · rw [covers_cons, covers_cons] at hc
                      rcases hc with h0 | h1 | hr
                      · exact absurd h0.1 (by omega)
                      · exact absurd h1.1 (by omega)
                      · exact Or.inr (by rw [covers_cons]; exact Or.inr hr)
            have hstep := ih (⟨s1.stop, s0.stop, s0.attrs⟩ :: rest)
              (fun y => E y ∨ inSpan ⟨s0.start, s1.start, s0.attrs⟩ y ∨
                inSpan ⟨s1.start, s1.stop, s0.attrs.merged s1.attrs⟩ y)
              (by simp only [List.length_cons] at hn ⊢; omega) hwf' hinv' x
            rw [covers_cons, covers_cons, covers_cons, covers_cons]
            rw [covers_cons] at hstep
            try simp only at hstep
            constructor
            · rintro (hE | hp | hd | hrec)
              · exact Or.inl hE
              · have hp' : s0.start ≤ x ∧ x < s1.start := hp
                exact Or.inr (Or.inl ⟨hp'.1, by omega⟩)
              · have hd' : s1.start ≤ x ∧ x < s1.stop := hd
                exact Or.inr (Or.inr (Or.inl hd'))
              · rcases hstep.mp (Or.inr hrec) with (hE | hp | hd) | htl | hr
                · exact Or.inl hE
                · have hp' : s0.start ≤ x ∧ x < s1.start := hp
                  exact Or.inr (Or.inl ⟨hp'.1, by omega⟩)
                · have hd' : s1.start ≤ x ∧ x < s1.stop := hd
                  exact Or.inr (Or.inr (Or.inl hd'))
                · have htl' : s1.stop ≤ x ∧ x < s0.stop := htl
                  exact Or.inr (Or.inl ⟨by omega, htl'.2⟩)
                · exact Or.inr (Or.inr (Or.inr hr))
            · rintro (hE | h0 | h1 | hr)
              · exact Or.inl hE
              · by_cases hx1 : x < s1.start
                · have hp : s0.start ≤ x ∧ x < s1.start := ⟨h0.1, hx1⟩
                  exact Or.inr (Or.inl hp)
                · by_cases hxe : x < s1.stop
                  · have hd : s1.start ≤ x ∧ x < s1.stop := ⟨by omega, hxe⟩
                    exact Or.inr (Or.inr (Or.inl hd))
                  · have htl : inSpan ⟨s1.stop, s0.stop, s0.attrs⟩ x :=
                      (⟨by omega, h0.2⟩ : s1.stop ≤ x ∧ x < s0.stop)
                    rcases hstep.mpr (Or.inr (Or.inl htl)) with (hE | hp | hd) | hrec
                    · exact Or.inl hE
                    · exact Or.inr (Or.inl hp)
                    · exact Or.inr (Or.inr (Or.inl hd))
                    · exact Or.inr (Or.inr (Or.inr hrec))
              · have hd : s1.start ≤ x ∧ x < s1.stop := ⟨h1.1, h1.2⟩
                exact Or.inr (Or.inr (Or.inl hd))
              · rcases hstep.mpr (Or.inr (Or.inr hr)) with (hE | hp | hd) | hrec
                · exact Or.inl hE
                · exact Or.inr (Or.inl hp)
                · exact Or.inr (Or.inr (Or.inl hd))
                · exact Or.inr (Or.inr (Or.inr hrec))
          · -- no split, second ends strictly first: the truncated remainder of
            -- the head is pushed back; the region between the second span's
            -- end and the head's start is exactly the spec-violating leapfrog
            -- window, and the invariant shows it is already accounted for
            rw [mergeLoopN_step_nosplit_gt n s0 s1 rest hov hsplit hcmp]
            have hwf' : WfSpans (⟨s1.stop, s0.stop, s0.attrs⟩ :: rest) := by
              intro t ht
              rcases List.mem_cons.mp ht with rfl | htr
              · exact le_of_lt hcmp
              · exact hwfr t htr
            have hinv' : MInv
                (fun y => E y ∨ inSpan ⟨s1.start, s1.stop, s0.attrs.merged s1.attrs⟩ y)
                (⟨s1.stop, s0.stop, s0.attrs⟩ :: rest) := by
              refine MInv_single hrest ?_
              intro y hlow hylt
              have hylt' : y < s1.stop := hylt
              by_cases hya1 : s1.start ≤ y
              · have hd : s1.start ≤ y ∧ y < s1.stop := ⟨hya1, hylt'⟩
                exact Or.inl (Or.inr hd)
              · rcases MInv_s1 hinv with hle | hcov1
                · exfalso
                  obtain ⟨t, ht, hty⟩ := hlow
                  rcases List.mem_cons.mp ht with rfl | htr
                  · have : s1.stop ≤ y := hty
                    omega
                  · exact absurd (hle t htr) (by omega)
                · have hlow' : lowStart (s0 :: s1 :: rest) y := by
                    obtain ⟨t, ht, hty⟩ := hlow
                    rcases List.mem_cons.mp ht with rfl | htr
                    · have : s1.stop ≤ y := hty
                      omega
                    · exact ⟨t, by simp [htr], hty⟩
                  rcases hcov1 y hlow' (by omega) with hE | hc
                  · exact Or.inl (Or.inl hE)
                  · rw [covers_cons, covers_cons] at hc
                    rcases hc with h0 | h1 | hr
                    · exact absurd h0.1 (by omega)
                    · exact absurd h1.1 (by omega)
                    · exact Or.inr (by rw [covers_cons]; exact Or.inr hr)
            have hstep := ih (⟨s1.stop, s0.stop, s0.attrs⟩ :: rest)
              (fun y => E y ∨ inSpan ⟨s1.start, s1.stop, s0.attrs.merged s1.attrs⟩ y)
              (by simp only [List.length_cons] at hn ⊢; omega) hwf' hinv' x
            rw [covers_cons, covers_cons, covers_cons]
            rw [covers_cons] at hstep
            try simp only at hstep
            constructor
            · rintro (hE | hd | hrec)
              · exact Or.inl hE
              · have hd' : s1.start ≤ x ∧ x < s1.stop := hd
                exact Or.inr (Or.inr (Or.inl hd'))
              · rcases hstep.mp (Or.inr hrec) with (hE | hd) | htl | hr
                · exact Or.inl hE
                · have hd' : s1.start ≤ x ∧ x < s1.stop := hd
                  exact Or.inr (Or.inr (Or.inl hd'))
                · have htl' : s1.stop ≤ x ∧ x < s0.stop := htl
                  by_cases hx0 : s0.start ≤ x
                  · exact Or.inr (Or.inl ⟨hx0, htl'.2⟩)
                  · -- the leapfrog gap: x lies between the second span's end
                    -- and the head's start; the invariant already covers it
                    rcases MInv_s0 hinv with ⟨h01, _⟩ | hcov0
                    · exact absurd h01 (by omega)
                    · have hlow' : lowStart (s0 :: s1 :: rest) x :=
                        ⟨s1, by simp, by omega⟩
                      rcases hcov0 x hlow' (by omega) with hE | hc
                      · exact Or.inl hE
                      · rw [covers_cons, covers_cons] at hc
                        exact Or.inr hc
                · exact Or.inr (Or.inr (Or.inr hr))
            · rintro (hE | h0 | h1 | hr)
              · exact Or.inl hE
              · by_cases hxe : x < s1.stop
                · have hd : s1.start ≤ x ∧ x < s1.stop := ⟨by omega, hxe⟩
                  exact Or.inr (Or.inl hd)
                · have htl : inSpan ⟨s1.stop, s0.stop, s0.attrs⟩ x :=
                    (⟨by omega, h0.2⟩ : s1.stop ≤ x ∧ x < s0.stop)
                  rcases hstep.mpr (Or.inr (Or.inl htl)) with (hE | hd) | hrec
                  · exact Or.inl hE
                  · exact Or.inr (Or.inl hd)
                  · exact Or.inr (Or.inr hrec)
              · have hd : s1.start ≤ x ∧ x < s1.stop := ⟨h1.1, h1.2⟩
                exact Or.inr (Or.inl hd)
              · rcases hstep.mpr (Or.inr (Or.inr hr)) with (hE | hd) | hrec
                · exact Or.inl hE
                · exact Or.inr (Or.inl hd)
                · exact Or.inr (Or.inr hrec)
      · -- the heads do not overlap: the first is emitted
        rw [mergeLoopN_step_disjoint n s0 s1 rest hov]
        have hwf' : WfSpans (s1 :: rest) := fun t ht => hwf t (by simp [ht])
        have hinv' : MInv (fun y => E y ∨ inSpan s0 y) (s1 :: rest) := by
          rcases MInv_s1 hinv with hle | hcov1
          · refine MInv_single hrest ?_
            rintro y ⟨t, ht, hty⟩ hys1
            rcases List.mem_cons.mp ht with rfl | htr
            · omega
            · exact absurd (hle t htr) (by omega)
          · refine MInv_single hrest ?_
            intro y hlow hys1
            have hlow' : lowStart (s0 :: s1 :: rest) y := by
              obtain ⟨t, ht, hty⟩ := hlow
              exact ⟨t, by simp [List.mem_cons.mp ht], hty⟩
            rcases hcov1 y hlow' hys1 with hE | hc
            · exact Or.inl (Or.inl hE)
            · rw [covers_cons, covers_cons] at hc
              rcases hc with h0 | h1 | hr
              · exact Or.inl (Or.inr h0)
              · exact absurd h1.1 (by omega)
              · exact Or.inr (by rw [covers_cons]; exact Or.inr hr)
        have hstep := ih (s1 :: rest) (fun y => E y ∨ inSpan s0 y) hn' hwf' hinv' x
        rw [covers_cons, covers_cons, covers_cons]
        try simp only at hstep
        constructor
        · rintro (hE | h0 | hrec)
          · exact Or.inl hE
          · exact Or.inr (Or.inl h0)
          · rcases hstep.mp (Or.inr hrec) with (hE | h0) | hc
            · exact Or.inl hE
            · exact Or.inr (Or.inl h0)
            · rw [covers_cons] at hc
              rcases hc with h1 | hr
              · exact Or.inr (Or.inr (Or.inl h1))
              · exact Or.inr (Or.inr (Or.inr hr))
        · rintro (hE | h0 | h1 | hr)
          · exact Or.inl hE
          · exact Or.inr (Or.inl h0)
          · rcases hstep.mpr (Or.inr (by rw [covers_cons]; exact Or.inl h1)) with (hE | h0) | hrec
            · exact Or.inl hE
            · exact Or.inr (Or.inl h0)
            · exact Or.inr (Or.inr hrec)
          · rcases hstep.mpr (Or.inr (by rw [covers_cons]; exact Or.inr hr)) with (hE | h0) | hrec
            · exact Or.inl hE
            · exact Or.inr (Or.inl h0)
            · exact Or.inr (Or.inr hrec)

/-- C3: for well-formed spans (the data model's `start <= end` invariant),
`merge` preserves coverage exactly: a byte is covered by some output span if
and only if it is covered by some input span — no coverage is lost and none
is added. -/
theorem merge_covers_union (a b : List Span) (hwf : WfSpans (a ++ b)) :
    ∀ x, covers (merge a b) x ↔ covers (a ++ b) x := by
  have hperm : (sortSpans (a ++ b)).Perm (a ++ b) :=
    List.perm_insertionSort spanLEP (a ++ b)
  have hwf' : WfSpans (sortSpans (a ++ b)) := fun s hs => hwf s (hperm.mem_iff.mp hs)
  have hpair : List.Pairwise startLE (sortSpans (a ++ b)) := by
    refine List.Pairwise.imp ?_ (List.sorted_insertionSort spanLEP (a ++ b))
    intro p q h
    unfold spanLEP at h
    unfold startLE
    omega
  have hinv : MInv (fun _ => False) (sortSpans (a ++ b)) :=
    ⟨[], sortSpans (a ++ b), rfl, by simp, hpair, by simp⟩
  intro x
  have hmain := mergeLoopN_covers (sortSpans (a ++ b)).length (sortSpans (a ++ b))
    (fun _ => False) rfl hwf' hinv x
  simp only [false_or] at hmain
  exact hmain.trans (covers_perm hperm x)

/-- Witness for C3 at a concrete input: two overlapping well-formed spans,
checked at the point 4 inside the overlap. -/
theorem merge_covers_union_witness :
    WfSpans ([Span.new 0 5 boldAttrs] ++ [Span.new 3 9 blueAttrs]) ∧
      (covers (merge [Span.new 0 5 boldAttrs] [Span.new 3 9 blueAttrs]) 4 ↔
        covers ([Span.new 0 5 boldAttrs] ++ [Span.new 3 9 blueAttrs]) 4) :=
  ⟨by decide, merge_covers_union [Span.new 0 5 boldAttrs] [Span.new 3 9 blueAttrs]
    (by decide) 4⟩
